import Mathlib

/-!
Verification development for the `ScheduleBasedLogSorter` component of the
`conway.svc` repository (file `src/conway/async_utils/schedule_based_log_sorter.py`).

The Python code is shallowly embedded as executable Lean definitions:

* A log line's `labels` dictionary becomes the inductive type `Labels`; the
  optional `scheduling_context` sub-dictionary is the parent chain.
* An input log line (a dict with a `message` and `labels`) becomes `LogLine`.
* `_timestamp_key` (a `re.match` of the pattern `(\d+.\d+) sec` followed by
  `float(...)`) becomes `timestamp_key : String → Option PyNum`; `none` models
  a raised exception.  Numeric values are modelled as exact rationals carried
  as unnormalized numerator/denominator pairs (`PyNum`), compared by integer
  cross-multiplication; `PyNum.toRat` maps them to `ℚ` for specification
  statements.  The timestamps the program handles are decimal strings of
  millisecond resolution, for which IEEE-double comparison and exact rational
  comparison agree.  The model restricts `\d` to the ASCII digits.
* Python exceptions are modelled with `Except SortError`: `SortError.parseError`
  is the error escaping `_extract_task_metadata` (a `TypeError`/`ValueError`
  raised by `_timestamp_key` inside the `sorted(...)` call, which carries no
  record content), and `SortError.sortFailed cleaned` is the `ValueError` that
  `sort()` raises when the `sorted` call fails (it embeds the cleaned lines).
* `self.metadata_dict` (a Python dict) becomes the insertion-ordered
  association list `RawMeta`; `task_ancestors` (a Python `list(set(...))` whose
  iteration order is never observed - only membership and length are used)
  becomes a `Finset String`.
* `list(set(ts_l))` has an unspecified iteration order in Python; the model
  fixes first-occurrence order (`py_set_list`).  The subsequent sort is by the
  numeric key, so the choice is observable only between distinct strings that
  parse to equal numbers, which no claim depends on.
* Python's `sorted` first computes the key of every element (in list order) and
  then runs a stable sort; the model computes the keys with `map_except` and
  then runs a stable insertion sort (`py_sort_key` / `py_sort_ts`).  A stable
  sort under a total comparison is unique, so this agrees with Timsort whenever
  all comparisons succeed; for keys of unequal dimension a comparison raises
  (`key_lt` returns `none`), and the model raises at the first comparison the
  insertion schedule reaches.
-/

/-- The `labels` dictionary of a log line: `timestamp`, `thread`, `task`,
`source`, and the optional `scheduling_context` parent chain (`child` has a
parent, `base` has none). -/
inductive Labels : Type where
  | base (timestamp thread task source : String)
  | child (timestamp thread task source : String) (parent : Labels)
deriving DecidableEq, Repr

def Labels.timestamp : Labels → String
  | .base ts _ _ _ => ts
  | .child ts _ _ _ _ => ts

def Labels.thread : Labels → String
  | .base _ th _ _ => th
  | .child _ th _ _ _ => th

def Labels.task : Labels → String
  | .base _ _ tk _ => tk
  | .child _ _ tk _ _ => tk

def Labels.source : Labels → String
  | .base _ _ _ src => src
  | .child _ _ _ src _ => src

def Labels.scheduling_context : Labels → Option Labels
  | .base _ _ _ _ => none
  | .child _ _ _ _ p => some p

/-- One input log line: the `message` string plus its `labels`. -/
structure LogLine where
  message : String
  labels : Labels
deriving DecidableEq, Repr

/-- The two exceptions that can escape the sorter: `parseError` is the
`TypeError`/`ValueError` raised by `_timestamp_key` during
`_extract_task_metadata` (it carries no log-record content), and
`sortFailed` is the `ValueError` raised by `sort()` around the `sorted` call,
which embeds the full list of cleaned lines. -/
inductive SortError : Type where
  | parseError
  | sortFailed (cleaned : List LogLine)
deriving DecidableEq, Repr

/-! ### `_timestamp_key`: `re.match(r"(\d+.\d+) sec", ts)` then `float(m[1])`

`re.match` anchors at the start only.  With `D` the maximal ASCII-digit run at
the start of `ts` (length `n`), backtracking gives exactly two ways the pattern
can match: the group is `D ++ [x] ++ B` where `x` is the character after `D`
(any character except newline, and necessarily a non-digit) and `B` the nonempty
digit run after `x`, with `" sec"` following - or, failing that, the group is
`D` itself when `n ≥ 3` and `" sec"` directly follows `D` (the `.` of the
pattern and the second `\d+` then eat digits of `D`, which therefore needs at
least three).  `float` accepts the group when the middle
character is `.`, `_`, `e` or `E`; otherwise it raises. -/

/-- An exact rational carried unnormalized (the denominator is a positive
power of ten by construction).  Python compares floats by value; the model
compares by integer cross-multiplication, never normalizing. -/
structure PyNum where
  num : ℤ
  den : ℤ
deriving DecidableEq, Repr

/-- Value-level `<` of two parsed timestamps. -/
def PyNum.lt (x y : PyNum) : Bool := decide (x.num * y.den < y.num * x.den)

/-- Value-level `==` of two parsed timestamps. -/
def PyNum.eqv (x y : PyNum) : Bool := decide (x.num * y.den = y.num * x.den)

/-- The rational value of a `PyNum`, for specification statements. -/
def PyNum.toRat (x : PyNum) : ℚ := (x.num : ℚ) / (x.den : ℚ)

def starts_with_chars : List Char → List Char → Bool
  | [], _ => true
  | _ :: _, [] => false
  | p :: ps, c :: cs => p = c && starts_with_chars ps cs

def digits_to_nat (ds : List Char) : ℕ :=
  ds.foldl (fun n c => 10 * n + (c.toNat - 48)) 0

/-- `float(group)` for a group of shape `d1 ++ [x] ++ d2` with `d1`, `d2`
digit runs and `x` a non-digit: defined for `.`, `_`, `e`, `E`, else an
exception (`none`). -/
def float_of_group (d1 : List Char) (x : Char) (d2 : List Char) : Option PyNum :=
  if x = '.' then
    some ⟨digits_to_nat d1 * 10 ^ d2.length + digits_to_nat d2, 10 ^ d2.length⟩
  else if x = '_' then some ⟨digits_to_nat (d1 ++ d2), 1⟩
  else if x = 'e' ∨ x = 'E' then some ⟨digits_to_nat d1 * 10 ^ digits_to_nat d2, 1⟩
  else none

/-- `ScheduleBasedLogSorter._timestamp_key`; `none` models a raised
exception (no regex match, or `float` failing on the group). -/
def timestamp_key (ts : String) : Option PyNum :=
  let cs := ts.data
  let d1 := cs.takeWhile Char.isDigit
  let r1 := cs.dropWhile Char.isDigit
  if d1 = [] then none
  else
    match r1 with
    | [] => none
    | x :: r2 =>
      let d2 := r2.takeWhile Char.isDigit
      let r3 := r2.dropWhile Char.isDigit
      if x ≠ '\n' ∧ d2 ≠ [] ∧ starts_with_chars " sec".data r3 = true then
        float_of_group d1 x d2
      else if 3 ≤ d1.length ∧ starts_with_chars " sec".data r1 = true then
        some ⟨digits_to_nat d1, 1⟩
      else none

/-! ### The cleaning pass (`_clean_input_lines`) -/

/-- The loop body of `_first_ancestor_with_a_different_task`: starting from
`l`, walk up the `scheduling_context` chain and return the first ancestor whose
task differs from `task`. -/
def first_ancestor_go (task : String) : Labels → Option Labels
  | .base _ _ _ _ => none
  | .child _ _ _ _ p => if p.task ≠ task then some p else first_ancestor_go task p

/-- `_first_ancestor_with_a_different_task(some_labels)`. -/
def first_ancestor_with_a_different_task (l : Labels) : Option Labels :=
  first_ancestor_go l.task l

/-- Fused form of `_clean_labels`: `cleanp task l` scans the chain `l`
(inclusively) for the first link whose task differs from `task` and returns
that link, cleaned; `none` when every link has task `task`.  The bridge lemma
`clean_labels_eq_source` below recovers the recursion exactly as the source
writes it (find first different-task ancestor, then clean it recursively); the
fused form is used so the function is structurally recursive and computable by
the kernel. -/
def cleanp (task : String) : Labels → Option Labels
  | .base ts th tk src => if tk = task then none else some (.base ts th tk src)
  | .child ts th tk src p =>
      if tk = task then cleanp task p
      else
        some (match cleanp tk p with
          | none => .base ts th tk src
          | some a => .child ts th tk src a)

/-- `_clean_labels(raw_labels)`. -/
def clean_labels : Labels → Labels
  | .base ts th tk src => .base ts th tk src
  | .child ts th tk src p =>
      match cleanp tk p with
      | none => .base ts th tk src
      | some a => .child ts th tk src a

/-- `ScheduleBasedLogSorter._clean_input_lines`. -/
def clean_input_lines (input : List LogLine) : List LogLine :=
  input.map (fun line => { line with labels := clean_labels line.labels })

/-! ### `_extract_task_metadata` -/

/-- Per-task entry of `self.metadata_dict`.  `task_ancestors` is kept as a
`Finset` because the source materialises it with `list(set(...))` and only ever
uses membership and length. -/
structure TaskMeta where
  timestamp_list : List String
  task_ancestors : Finset String
deriving DecidableEq

/-- `self.metadata_dict`: a Python dict modelled as an insertion-ordered
association list with unique keys. -/
abbrev RawMeta := List (String × TaskMeta)

def dict_get : RawMeta → String → Option TaskMeta
  | [], _ => none
  | (k', v) :: rest, k => if k' = k then some v else dict_get rest k

def dict_set : RawMeta → String → TaskMeta → RawMeta
  | [], k, v => [(k, v)]
  | (k', v') :: rest, k, v =>
      if k' = k then (k, v) :: rest else (k', v') :: dict_set rest k v

/-- The first half of `_extract_recursively`'s body: create the entry for
`tk` if absent, then append `ts` to its `timestamp_list`. -/
def meta_step (d : RawMeta) (tk ts : String) : RawMeta :=
  let d1 := match dict_get d tk with
    | some _ => d
    | none => dict_set d tk ⟨[], ∅⟩
  let m1 := (dict_get d1 tk).getD ⟨[], ∅⟩
  dict_set d1 tk ⟨m1.timestamp_list ++ [ts], m1.task_ancestors⟩

/-- `_extract_recursively(labels)` acting on the dict state `d`. -/
def extract_recursively : Labels → RawMeta → RawMeta
  | .base ts _ tk _, d => meta_step d tk ts
  | .child ts _ tk _ p, d =>
      let d2 := meta_step d tk ts
      let d3 := extract_recursively p d2
      let pm := (dict_get d3 p.task).getD ⟨[], ∅⟩
      let cm := (dict_get d3 tk).getD ⟨[], ∅⟩
      dict_set d3 tk ⟨cm.timestamp_list, insert p.task (pm.task_ancestors ∪ cm.task_ancestors)⟩

/-- The dict after the first loop of `_extract_task_metadata`. -/
def raw_metadata (cleaned : List LogLine) : RawMeta :=
  cleaned.foldl (fun d line => extract_recursively line.labels d) []

/-- `list(set(ts_l))`, with first-occurrence order fixed (the source's set
iteration order is unspecified and never observed past the numeric sort). -/
def py_set_list (l : List String) : List String :=
  l.foldl (fun acc x => if x ∈ acc then acc else acc ++ [x]) []

/-- One step of the stable insertion modelling `sorted(..., key=...)` on
timestamp/key pairs: a later element is placed after every element it is not
strictly below. -/
def py_insert_ts (x : String × PyNum) : List (String × PyNum) → List (String × PyNum)
  | [] => [x]
  | y :: ys => if x.2.lt y.2 then x :: y :: ys else y :: py_insert_ts x ys

/-- Stable sort of timestamp/key pairs (left fold of stable insertions). -/
def py_sort_ts (acc : List (String × PyNum)) : List (String × PyNum) → List (String × PyNum)
  | [] => acc
  | x :: xs => py_sort_ts (py_insert_ts x acc) xs

/-- Exception-propagating `map`, modelling a Python loop that may raise. -/
def map_except {α β : Type} (f : α → Except SortError β) : List α → Except SortError (List β)
  | [] => .ok []
  | x :: xs =>
      match f x with
      | .error e => .error e
      | .ok y =>
          match map_except f xs with
          | .error e => .error e
          | .ok ys => .ok (y :: ys)

/-- `sorted(ts_l, key=ME._timestamp_key)`: every key is computed first (a
malformed timestamp raises, modelled by `parseError`), then the list is stably
sorted by the numeric key. -/
def sort_timestamps (l : List String) : Except SortError (List String) :=
  match map_except (fun s =>
      match timestamp_key s with
      | some q => Except.ok (s, q)
      | none => Except.error SortError.parseError) l with
  | .error e => .error e
  | .ok keyed => .ok ((py_sort_ts [] keyed).map Prod.fst)

/-- `ScheduleBasedLogSorter._extract_task_metadata` (dict build plus the
dedup-and-sort loop over every task's timestamp list). -/
def extract_task_metadata (cleaned : List LogLine) : Except SortError RawMeta :=
  map_except (fun p =>
      match sort_timestamps (py_set_list p.2.timestamp_list) with
      | .error e => .error e
      | .ok ts2 => .ok (p.1, TaskMeta.mk ts2 p.2.task_ancestors))
    (raw_metadata cleaned)

/-! ### `_log_line_key` -/

/-- A sorting key "tensor": either a pair of floats, or a pair of a parent key
and a pair of floats.  These are exactly the tuple shapes `_hierarchical_key`
and the padding loop can produce. -/
inductive Key : Type where
  | leaf (a b : PyNum)
  | node (p : Key) (a b : PyNum)
deriving DecidableEq, Repr

/-- `_dimension_of_key` (count nesting along first components). -/
def dimension_of_key : Key → ℕ
  | .leaf _ _ => 1
  | .node p _ _ => dimension_of_key p + 1

def not_using_an_event_loop : String := "Not using an event loop"

/-- `_labels_key(labels)`; `none` models any exception inside the key
function (missing metadata entry, empty timestamp list, or `_timestamp_key`
raising), which `sort()` turns into its `ValueError`. -/
def labels_key (meta : RawMeta) (l : Labels) : Option (PyNum × PyNum) :=
  if l.task ≠ not_using_an_event_loop then
    match dict_get meta l.task with
    | none => none
    | some m =>
        match m.timestamp_list.head? with
        | none => none
        | some min_ts =>
            match timestamp_key min_ts, timestamp_key l.timestamp with
            | some a, some b => some (a, b)
            | _, _ => none
  else
    match timestamp_key l.timestamp with
    | some b => some (b, b)
    | none => none

/-- `_hierarchical_key(labels)`. -/
def hierarchical_key (meta : RawMeta) : Labels → Option Key
  | .base ts th tk src =>
      match labels_key meta (.base ts th tk src) with
      | none => none
      | some (a, b) => some (.leaf a b)
  | .child ts th tk src p =>
      match hierarchical_key meta p with
      | none => none
      | some pk =>
          match labels_key meta (.child ts th tk src p) with
          | none => none
          | some (a, b) => some (.node pk a b)

/-- `max([len(...task_ancestors...) for task in metadata_dict])`; `none`
models the `ValueError` of `max` on an empty dict (never reached: the key
function is only invoked on elements of a nonempty batch). -/
def max_nb_ancestors (meta : RawMeta) : Option ℕ :=
  match meta.map (fun p => p.2.task_ancestors.card) with
  | [] => none
  | n :: ns => some (ns.foldl Nat.max n)

/-- The padding loop `for idx in range(padding_needed): key = (key, (0,0))`. -/
def pad_key : Key → ℕ → Key
  | k, 0 => k
  | k, n + 1 => pad_key (.node k ⟨0, 1⟩ ⟨0, 1⟩) n

/-- `ScheduleBasedLogSorter._log_line_key`.  `range` of a negative
`padding_needed` is empty, hence the `Int.toNat`. -/
def log_line_key (meta : RawMeta) (line : LogLine) : Option Key :=
  match max_nb_ancestors meta with
  | none => none
  | some mx =>
      match hierarchical_key meta line.labels with
      | none => none
      | some uk =>
          some (pad_key uk ((1 + (mx : ℤ) - (dimension_of_key uk : ℤ)).toNat))

/-! ### The `sorted` call of `sort()` -/

/-- Python `==` on two key tensors: elementwise value equality; mismatched
shapes compare unequal without raising. -/
def key_eq : Key → Key → Bool
  | .leaf a b, .leaf c d => a.eqv c && b.eqv d
  | .node p a b, .node q c d => key_eq p q && (a.eqv c && b.eqv d)
  | _, _ => false

/-- Python `<` on two keys; `none` is the `TypeError` raised when a tuple
meets a float (keys of unequal dimension).  Tuples compare lexicographically:
`==` on mismatched shapes is `False` without raising, so a differing parent
decides before the leaf pairs are compared. -/
def key_lt : Key → Key → Option Bool
  | .leaf a b, .leaf c d => some (a.lt c || (a.eqv c && b.lt d))
  | .node p a b, .node q c d =>
      if key_eq p q then some (a.lt c || (a.eqv c && b.lt d))
      else key_lt p q
  | _, _ => none

/-- Stable insertion of a keyed line, propagating comparison failures. -/
def py_insert_key (x : LogLine × Key) : List (LogLine × Key) → Option (List (LogLine × Key))
  | [] => some [x]
  | y :: ys =>
      match key_lt x.2 y.2 with
      | none => none
      | some true => some (x :: y :: ys)
      | some false =>
          match py_insert_key x ys with
          | none => none
          | some r => some (y :: r)

/-- Stable sort of keyed lines, propagating comparison failures. -/
def py_sort_key (acc : List (LogLine × Key)) :
    List (LogLine × Key) → Option (List (LogLine × Key))
  | [] => some acc
  | x :: xs =>
      match py_insert_key x acc with
      | none => none
      | some acc2 => py_sort_key acc2 xs

/-- The `sorted(self.cleaned_lines, key=...)` call with its `try/except`: any
exception while building a key or comparing two keys becomes the `ValueError`
carrying the cleaned lines. -/
def sort_lines (cleaned : List LogLine) (meta : RawMeta) : Except SortError (List LogLine) :=
  match map_except (fun line =>
      match log_line_key meta line with
      | some k => Except.ok (line, k)
      | none => Except.error (SortError.sortFailed cleaned)) cleaned with
  | .error e => .error e
  | .ok keyed =>
      match py_sort_key [] keyed with
      | none => .error (SortError.sortFailed cleaned)
      | some sorted_pairs => .ok (sorted_pairs.map Prod.fst)

/-! ### Rendering -/

def tabs (n : ℕ) : String := String.mk (List.replicate n '\t')

/-- `ScheduleBasedLogSorter._format_labels`.  The metadata lookup cannot fail
for a task of the batch, so the `getD` default is never exercised there. -/
def format_labels (meta : RawMeta) (l : Labels) : String :=
  let m := (dict_get meta l.task).getD ⟨[], ∅⟩
  tabs m.task_ancestors.card ++
    "[" ++ l.timestamp ++ " " ++ l.task ++ " - " ++ l.thread ++ "@" ++ l.source ++ "]"

/-- `ScheduleBasedLogSorter._format_ancestors`. -/
def format_ancestors (meta : RawMeta) : Labels → List String
  | .base _ _ _ _ => []
  | .child _ _ _ _ p => format_ancestors meta p ++ [format_labels meta p]

/-- The indentation string built from `prefix + "\t"`: each tab stays a tab,
every other character becomes a space. -/
def indentation_of (pfx : String) : String :=
  String.mk ((pfx ++ "\t").data.map (fun c => if c = '\t' then '\t' else ' '))

/-- Python `msg.split("\n")` on the character list (always nonempty). -/
def split_newlines_chars : List Char → List String
  | [] => [""]
  | c :: cs =>
      match split_newlines_chars cs with
      | [] => []
      | s :: rest =>
          if c = '\n' then "" :: s :: rest else String.mk (c :: s.data) :: rest

/-- Python `msg.split("\n")`. -/
def split_newlines (s : String) : List String := split_newlines_chars s.data

/-- The per-record emission of `sort()`: the prefixed first message line, then
the other message lines under matching indentation. -/
def render_line (meta : RawMeta) (line : LogLine) : List String :=
  let pfx := format_labels meta line.labels
  match split_newlines line.message with
  | [] => []
  | first :: rest => (pfx ++ "\t" ++ first) :: rest.map (fun s => indentation_of pfx ++ s)

/-- One iteration of the output loop of `sort()`: emit not-yet-seen ancestor
header lines, then the record's own lines.  The state is
`(result_l, already_seen)`. -/
def emit_record (meta : RawMeta) (st : List String × List String) (line : LogLine) :
    List String × List String :=
  let st2 := (format_ancestors meta line.labels).foldl
    (fun (p : List String × List String) txt =>
      if txt ∈ p.2 then p else (p.1 ++ [txt], p.2 ++ [txt])) st
  (st2.1 ++ render_line meta line, st2.2)

/-- The output loop of `sort()`. -/
def render (meta : RawMeta) (sorted_lines : List LogLine) : List String :=
  (sorted_lines.foldl (emit_record meta) ([], [])).1

/-- A full run of the sorter: `ScheduleBasedLogSorter(input_lines).sort()`.
The constructor performs the cleaning pass and the metadata extraction (where a
malformed timestamp raises), `sort()` the keyed sort and the rendering. -/
def ScheduleBasedLogSorter.sort (input : List LogLine) : Except SortError (List String) :=
  let cleaned := clean_input_lines input
  match extract_task_metadata cleaned with
  | .error e => .error e
  | .ok meta =>
      match sort_lines cleaned meta with
      | .error e => .error e
      | .ok sorted_lines => .ok (render meta sorted_lines)

/-! ### Specification-side definitions -/

/-- The cleanliness predicate of the spec: no two adjacent links of the chain
share a task. -/
def no_adjacent_same_task : Labels → Bool
  | .base _ _ _ _ => true
  | .child _ _ tk _ p => (p.task != tk) && no_adjacent_same_task p

/-- Inclusive scan for the first link of a chain whose task differs from
`task`; used to relate `cleanp` to `_first_ancestor_with_a_different_task`. -/
def fa_scan (task : String) : Labels → Option Labels
  | .base ts th tk src => if tk ≠ task then some (.base ts th tk src) else none
  | .child ts th tk src p => if tk ≠ task then some (.child ts th tk src p) else fa_scan task p

/-- All links of a chain, the record's own Label Set first. -/
def chain_links : Labels → List Labels
  | .base ts th tk src => [.base ts th tk src]
  | .child ts th tk src p => .child ts th tk src p :: chain_links p

/-- Number of links of a chain. -/
def chain_length : Labels → ℕ
  | .base _ _ _ _ => 1
  | .child _ _ _ _ p => chain_length p + 1

/-- All task identifiers occurring in a chain. -/
def chain_tasks : Labels → Finset String
  | .base _ _ tk _ => {tk}
  | .child _ _ tk _ p => insert tk (chain_tasks p)

/-- The task identifiers appearing strictly above some link with task `t`
within the chain. -/
def spec_ancestors_in_chain (t : String) : Labels → Finset String
  | .base _ _ _ _ => ∅
  | .child _ _ tk _ p =>
      (if tk = t then chain_tasks p else ∅) ∪ spec_ancestors_in_chain t p

/-- The spec's characterisation of `ancestors(t)`: the union, over every
record whose chain contains a link with task `t`, of the task identifiers
strictly above that link in that record's chain. -/
def spec_ancestors (cleaned : List LogLine) (t : String) : Finset String :=
  cleaned.foldl (fun s line => s ∪ spec_ancestors_in_chain t line.labels) ∅

/-- The ancestor set recorded for `t` in the metadata dict (`∅` when absent). -/
def anc_of (d : RawMeta) (t : String) : Finset String :=
  match dict_get d t with
  | none => ∅
  | some m => m.task_ancestors

/-- The timestamp list recorded for `t` in the metadata dict. -/
def ts_of (d : RawMeta) (t : String) : List String :=
  match dict_get d t with
  | none => []
  | some m => m.timestamp_list

/-- Number of leading tab characters of a rendered line. -/
def leading_tab_count (s : String) : ℕ :=
  (s.data.takeWhile (fun c => c = '\t')).length

/-! ### Concrete inputs for the scenario claims, counterexamples and
witnesses -/

/-- C1 scenario: first record's parent Label Set (`Task-36` at `2.278 sec`). -/
def c1_parent1 : Labels :=
  .base "2.278 sec" "MainThread" "Task-36" "repo_manipulation_test_case:100"

/-- C1 scenario: second record's parent Label Set (`Task-36` at `2.288 sec`). -/
def c1_parent2 : Labels :=
  .base "2.288 sec" "MainThread" "Task-36" "repo_manipulation_test_case:100"

/-- C1 scenario: the `Task-38` record. -/
def c1_rec1 : LogLine :=
  { message := "created the integration branch in the scenarios repo"
    labels := .child "4.186 sec" "MainThread" "Task-38" "repo_manipulation_test_case:195" c1_parent1 }

/-- C1 scenario: the `Task-40` record. -/
def c1_rec2 : LogLine :=
  { message := "created the integration branch in the docs repo"
    labels := .child "4.242 sec" "MainThread" "Task-40" "repo_manipulation_test_case:195" c1_parent2 }

/-- C3 witness input: one record whose parent repeats its own task. -/
def c3w_input : List LogLine :=
  [{ message := "m"
     labels := .child "1.000 sec" "T" "A" "s:1" (.base "0.900 sec" "T" "A" "s:0") }]

/-- C6 witness: an already-clean two-link chain. -/
def c6w_labels : Labels := .child "1.000 sec" "T" "B" "s:1" (.base "0.900 sec" "T" "A" "s:0")

/-- C2 counterexample: one record with the already-clean alternating-task
chain `A, B, A, B` (bottom to top). -/
def c2x_rec : LogLine :=
  { message := "m"
    labels := .child "4.000 sec" "T" "A" "s:4"
      (.child "3.000 sec" "T" "B" "s:3"
        (.child "2.000 sec" "T" "A" "s:2"
          (.base "1.000 sec" "T" "B" "s:1"))) }

def c2x_input : List LogLine := [c2x_rec]

/-- The dimension of the padded key the sorter builds for `c2x_rec`. -/
def c2x_key_dim : Option ℕ :=
  match extract_task_metadata (clean_input_lines c2x_input) with
  | .ok m => (log_line_key m c2x_rec).map dimension_of_key
  | .error _ => none

/-- `1 + M` for the `c2x_input` batch (`M` the maximal ancestor-set size). -/
def c2x_required_dim : Option ℕ :=
  match extract_task_metadata (clean_input_lines c2x_input) with
  | .ok m => (max_nb_ancestors m).map (fun mx => 1 + mx)
  | .error _ => none

/-- C2 amended witness: a one-task metadata dict and a chainless record. -/
def c2w_meta : RawMeta := [("A", ⟨["1.000 sec"], ∅⟩)]

def c2w_line : LogLine := { message := "m", labels := .base "2.000 sec" "T" "A" "s:1" }

/-- C4 counterexample: a record whose chain is `C → P → Q`... -/
def c4x_rec1 : LogLine :=
  { message := "m1"
    labels := .child "3.000 sec" "T" "C" "s:3"
      (.child "2.000 sec" "T" "P" "s:2" (.base "1.000 sec" "T" "Q" "s:1")) }

/-- ...and a record whose chain is `D → P`, with `P` parentless this time. -/
def c4x_rec2 : LogLine :=
  { message := "m2"
    labels := .child "5.000 sec" "T" "D" "s:5" (.base "4.000 sec" "T" "P" "s:4") }

def c4x_input : List LogLine := [c4x_rec1, c4x_rec2]

def c4x_input_rev : List LogLine := [c4x_rec2, c4x_rec1]

/-- The ancestor set the full metadata extraction computes for task `t`. -/
def final_anc_of (input : List LogLine) (t : String) : Option (Finset String) :=
  match extract_task_metadata (clean_input_lines input) with
  | .ok meta => some (anc_of meta t)
  | .error _ => none

/-- C4 witness: a single record with chain `A → B`. -/
def c4w_input : List LogLine :=
  [{ message := "m"
     labels := .child "1.000 sec" "T" "A" "s:1" (.base "0.500 sec" "T" "B" "s:0") }]

/-- C4 witness: the metadata the extraction computes on `c4w_input`. -/
def c4w_meta : RawMeta :=
  [("A", ⟨["1.000 sec"], {"B"}⟩), ("B", ⟨["0.500 sec"], ∅⟩)]

/-- C5 counterexample: the record's parent link has a malformed timestamp but
shares the record's task, so cleaning drops it before any parsing happens. -/
def c5x_input : List LogLine :=
  [{ message := "m"
     labels := .child "1.000 sec" "T" "A" "s:1" (.base "garbage" "T" "A" "s:0") }]

/-- C5 witness: a single record whose own timestamp is malformed. -/
def c5w_line : LogLine := { message := "m", labels := .base "bad" "T" "A" "s:1" }

def c5w_input : List LogLine := [c5w_line]

/-- C7 witness: the metadata of the C1 scenario batch. -/
def c7w_meta : RawMeta :=
  [("Task-38", ⟨["4.186 sec"], {"Task-36"}⟩),
   ("Task-36", ⟨["2.278 sec", "2.288 sec"], ∅⟩),
   ("Task-40", ⟨["4.242 sec"], {"Task-36"}⟩)]

/-- C7 witness: the `Task-36` metadata entry, with two timestamps. -/
def c7w_entry : String × TaskMeta := ("Task-36", ⟨["2.278 sec", "2.288 sec"], ∅⟩)

/-- C8 counterexample: a parentless sentinel-task record... -/
def c8x_rec1 : LogLine :=
  { message := "m1"
    labels := .base "1.000 sec" "MainThread" "Not using an event loop" "a:1" }

/-- ...next to a second sentinel-task record that has a parent. -/
def c8x_rec2 : LogLine :=
  { message := "m2"
    labels := .child "3.000 sec" "MainThread" "Not using an event loop" "a:2"
      (.base "2.000 sec" "MainThread" "Task-1" "a:3") }

def c8x_input : List LogLine := [c8x_rec1, c8x_rec2]

/-- C8 witness: a parentless sentinel-task Label Set. -/
def c8w_labels : Labels := .base "1.000 sec" "T" "Not using an event loop" "s:1"

/-! ### Lemmas and theorems -/

/-! #### The cleaning pass -/

@[simp] theorem Labels.task_base (ts th tk src : String) :
    (Labels.base ts th tk src).task = tk := rfl

@[simp] theorem Labels.task_child (ts th tk src : String) (p : Labels) :
    (Labels.child ts th tk src p).task = tk := rfl

@[simp] theorem Labels.timestamp_base (ts th tk src : String) :
    (Labels.base ts th tk src).timestamp = ts := rfl

@[simp] theorem Labels.timestamp_child (ts th tk src : String) (p : Labels) :
    (Labels.child ts th tk src p).timestamp = ts := rfl

@[simp] theorem Labels.thread_base (ts th tk src : String) :
    (Labels.base ts th tk src).thread = th := rfl

@[simp] theorem Labels.thread_child (ts th tk src : String) (p : Labels) :
    (Labels.child ts th tk src p).thread = th := rfl

@[simp] theorem Labels.source_base (ts th tk src : String) :
    (Labels.base ts th tk src).source = src := rfl

@[simp] theorem Labels.source_child (ts th tk src : String) (p : Labels) :
    (Labels.child ts th tk src p).source = src := rfl

theorem first_ancestor_go_child (task ts th tk src : String) (p : Labels) :
    first_ancestor_go task (.child ts th tk src p) =
      if p.task ≠ task then some p else first_ancestor_go task p := rfl

/-- The loop of `_first_ancestor_with_a_different_task` is the inclusive scan
of the parent chain. -/
theorem first_ancestor_go_eq_fa_scan (task ts th tk src : String) (p : Labels) :
    first_ancestor_go task (.child ts th tk src p) = fa_scan task p := by
  induction p generalizing ts th tk src with
  | base ts2 th2 tk2 src2 =>
      rw [first_ancestor_go_child]
      simp only [Labels.task_base, fa_scan, first_ancestor_go]
  | child ts2 th2 tk2 src2 q ih =>
      rw [first_ancestor_go_child]
      by_cases h : tk2 = task
      · simp only [Labels.task_child, fa_scan, h, ne_eq, not_true_eq_false, if_false,
          ite_false]
        exact ih ts2 th2 tk2 src2
      · simp only [Labels.task_child, fa_scan, h, ne_eq, not_false_eq_true, if_true,
          ite_true]

/-- `cleanp` is the clean of the first different-task link of the scan. -/
theorem cleanp_eq_fa_scan (task : String) (p : Labels) :
    cleanp task p = Option.map clean_labels (fa_scan task p) := by
  induction p generalizing task with
  | base ts th tk src =>
      by_cases h : tk = task <;> simp [cleanp, fa_scan, h, clean_labels]
  | child ts th tk src q ih =>
      by_cases h : tk = task
      · subst h
        simp [cleanp, fa_scan, ih]
      · simp [cleanp, fa_scan, h, clean_labels]

/-- Bridge to the source: `_clean_labels` keeps a chainless Label Set, and
otherwise finds the first ancestor with a different task, recursively cleans
it, and attaches it (or drops the parent when none exists).  This is the exact
recursion of the Python source; `cleanp` fuses the search and the recursive
call so that the definition is structurally recursive. -/
theorem clean_labels_eq_source (ts th tk src : String) (p : Labels) :
    clean_labels (.child ts th tk src p) =
      match first_ancestor_with_a_different_task (.child ts th tk src p) with
      | none => .base ts th tk src
      | some a => .child ts th tk src (clean_labels a) := by
  have h1 : first_ancestor_with_a_different_task (.child ts th tk src p) = fa_scan tk p := by
    unfold first_ancestor_with_a_different_task
    exact first_ancestor_go_eq_fa_scan tk ts th tk src p
  rw [h1]
  show (match cleanp tk p with
        | none => Labels.base ts th tk src
        | some a => Labels.child ts th tk src a) = _
  rw [cleanp_eq_fa_scan]
  cases fa_scan tk p <;> rfl

theorem clean_labels_task (l : Labels) : (clean_labels l).task = l.task := by
  cases l with
  | base ts th tk src => rfl
  | child ts th tk src p =>
      show (match cleanp tk p with
            | none => Labels.base ts th tk src
            | some a => Labels.child ts th tk src a).task = _
      cases cleanp tk p <;> rfl

theorem clean_labels_timestamp (l : Labels) : (clean_labels l).timestamp = l.timestamp := by
  cases l with
  | base ts th tk src => rfl
  | child ts th tk src p =>
      show (match cleanp tk p with
            | none => Labels.base ts th tk src
            | some a => Labels.child ts th tk src a).timestamp = _
      cases cleanp tk p <;> rfl

theorem clean_labels_thread (l : Labels) : (clean_labels l).thread = l.thread := by
  cases l with
  | base ts th tk src => rfl
  | child ts th tk src p =>
      show (match cleanp tk p with
            | none => Labels.base ts th tk src
            | some a => Labels.child ts th tk src a).thread = _
      cases cleanp tk p <;> rfl

theorem clean_labels_source (l : Labels) : (clean_labels l).source = l.source := by
  cases l with
  | base ts th tk src => rfl
  | child ts th tk src p =>
      show (match cleanp tk p with
            | none => Labels.base ts th tk src
            | some a => Labels.child ts th tk src a).source = _
      cases cleanp tk p <;> rfl

/-- Whatever `cleanp task` returns has a task different from `task` and a
clean chain. -/
theorem cleanp_clean (p : Labels) : ∀ task a, cleanp task p = some a →
    a.task ≠ task ∧ no_adjacent_same_task a = true := by
  induction p with
  | base ts th tk src =>
      intro task a h
      by_cases htk : tk = task
      · simp [cleanp, htk] at h
      · simp [cleanp, htk] at h
        subst h
        exact ⟨htk, rfl⟩
  | child ts th tk src q ih =>
      intro task a h
      by_cases htk : tk = task
      · subst htk
        simp [cleanp] at h
        exact ih tk a h
      · simp [cleanp, htk] at h
        rcases hq : cleanp tk q with _ | b
        · rw [hq] at h
          subst h
          exact ⟨htk, rfl⟩
        · rw [hq] at h
          subst h
          rcases ih tk b hq with ⟨hb1, hb2⟩
          refine ⟨htk, ?_⟩
          simp [no_adjacent_same_task, hb1, hb2]

theorem no_adjacent_clean_labels (l : Labels) :
    no_adjacent_same_task (clean_labels l) = true := by
  cases l with
  | base ts th tk src => rfl
  | child ts th tk src p =>
      show no_adjacent_same_task (match cleanp tk p with
            | none => Labels.base ts th tk src
            | some a => Labels.child ts th tk src a) = true
      rcases hq : cleanp tk p with _ | a
      · rfl
      · rcases cleanp_clean p tk a hq with ⟨h1, h2⟩
        simp [no_adjacent_same_task, h1, h2]

/-- On a chain whose links all differ from their parents, `cleanp` finds the
first link immediately and cleaning it is (inductively) the identity. -/
theorem cleanp_of_ne (task : String) (p : Labels) (h : p.task ≠ task) :
    cleanp task p = some (clean_labels p) := by
  cases p with
  | base ts th tk src => simp [cleanp, Labels.task] at h ⊢; simp [h, clean_labels]
  | child ts th tk src q => simp [Labels.task] at h; simp [cleanp, h, clean_labels]

theorem clean_labels_of_clean (l : Labels) (h : no_adjacent_same_task l = true) :
    clean_labels l = l := by
  induction l with
  | base ts th tk src => rfl
  | child ts th tk src p ih =>
      simp only [no_adjacent_same_task, Bool.and_eq_true, bne_iff_ne, ne_eq] at h
      show (match cleanp tk p with
            | none => Labels.base ts th tk src
            | some a => Labels.child ts th tk src a) = _
      rw [cleanp_of_ne tk p h.1, ih h.2]

/-! #### Claim theorems: cleaning and concrete scenarios -/

/-- C1: for the two-record batch of the class docstring (both records carrying
the same parent chain with task `Task-36`, at `2.278 sec` and `2.288 sec`
respectively, same thread and source, and the records themselves being
`Task-38` at `4.186 sec` and `Task-40` at `4.242 sec`), `sort()` returns
exactly four lines: a header for `Task-36` at `2.278 sec`, the `Task-38`
record line, a second header for `Task-36` at `2.288 sec`, and the `Task-40`
record line, in that order. -/
theorem C1_sort_concrete_scenario :
    ScheduleBasedLogSorter.sort [c1_rec1, c1_rec2] = Except.ok
      [ "[2.278 sec Task-36 - MainThread@repo_manipulation_test_case:100]",
        "\t[4.186 sec Task-38 - MainThread@repo_manipulation_test_case:195]\tcreated the integration branch in the scenarios repo",
        "[2.288 sec Task-36 - MainThread@repo_manipulation_test_case:100]",
        "\t[4.242 sec Task-40 - MainThread@repo_manipulation_test_case:195]\tcreated the integration branch in the docs repo" ] := by
  rfl

/-- C3: for every input batch and every record of the cleaned batch, the
cleaned Label Set chain has no two consecutive links with equal task. -/
theorem C3_cleaned_no_adjacent_same_task (input : List LogLine) (line : LogLine)
    (h : line ∈ clean_input_lines input) :
    no_adjacent_same_task line.labels = true := by
  rcases List.mem_map.1 h with ⟨orig, _, rfl⟩
  exact no_adjacent_clean_labels orig.labels

/-- Witness for C3 at a concrete batch whose single record has a same-task
parent link. -/
theorem C3_cleaned_no_adjacent_same_task_witness :
    (⟨"m", Labels.base "1.000 sec" "T" "A" "s:1"⟩ : LogLine) ∈ clean_input_lines c3w_input ∧
    no_adjacent_same_task (Labels.base "1.000 sec" "T" "A" "s:1") = true :=
  ⟨by decide,
   C3_cleaned_no_adjacent_same_task c3w_input ⟨"m", Labels.base "1.000 sec" "T" "A" "s:1"⟩
     (by decide)⟩

/-- C6: the cleaning pass is idempotent - a Label Set whose chain is already
clean (no two consecutive links with equal task) is returned structurally
unchanged. -/
theorem C6_cleaning_idempotent (l : Labels) (h : no_adjacent_same_task l = true) :
    clean_labels l = l :=
  clean_labels_of_clean l h

/-- Witness for C6 at a concrete clean two-link chain. -/
theorem C6_cleaning_idempotent_witness :
    no_adjacent_same_task c6w_labels = true ∧ clean_labels c6w_labels = c6w_labels :=
  ⟨by decide, C6_cleaning_idempotent c6w_labels (by decide)⟩

/-- C9: the empty batch sorts to the empty output list, with no error. -/
theorem C9_empty_batch : ScheduleBasedLogSorter.sort [] = Except.ok [] := rfl

/-- C10: the cleaning pass preserves the number of records and, per record,
the message and the record's own timestamp, thread, task and source label
fields; only the parent chain may change. -/
theorem C10_cleaning_frame (input : List LogLine) :
    (clean_input_lines input).length = input.length ∧
    List.Forall₂ (fun raw cl =>
        cl.message = raw.message ∧
        cl.labels.timestamp = raw.labels.timestamp ∧
        cl.labels.thread = raw.labels.thread ∧
        cl.labels.task = raw.labels.task ∧
        cl.labels.source = raw.labels.source)
      input (clean_input_lines input) := by
  constructor
  · exact List.length_map input _
  · rw [clean_input_lines, List.forall₂_map_right_iff]
    rw [List.forall₂_same]
    intro x _
    exact ⟨rfl, clean_labels_timestamp x.labels, clean_labels_thread x.labels,
      clean_labels_task x.labels, clean_labels_source x.labels⟩

/-! #### Claim C2: key dimensions -/

/-- An unpadded hierarchical key has one dimension per chain link. -/
theorem hierarchical_key_dim (meta : RawMeta) (l : Labels) :
    ∀ k, hierarchical_key meta l = some k → dimension_of_key k = chain_length l := by
  induction l with
  | base ts th tk src =>
      intro k h
      simp only [hierarchical_key] at h
      rcases hlk : labels_key meta (.base ts th tk src) with _ | ab
      · rw [hlk] at h; exact absurd h (by simp)
      · rw [hlk] at h
        rcases ab with ⟨a, b⟩
        simp at h
        subst h
        rfl
  | child ts th tk src p ih =>
      intro k h
      simp only [hierarchical_key] at h
      rcases hp : hierarchical_key meta p with _ | pk
      · rw [hp] at h; exact absurd h (by simp)
      · rw [hp] at h
        rcases hlk : labels_key meta (.child ts th tk src p) with _ | ab
        · rw [hlk] at h; exact absurd h (by simp)
        · rw [hlk] at h
          rcases ab with ⟨a, b⟩
          simp at h
          subst h
          show dimension_of_key pk + 1 = chain_length p + 1
          rw [ih pk hp]

/-- Each padding wrap adds one dimension. -/
theorem pad_key_dim (n : ℕ) : ∀ k, dimension_of_key (pad_key k n) = dimension_of_key k + n := by
  induction n with
  | zero => intro k; rfl
  | succ m ih =>
      intro k
      show dimension_of_key (pad_key (.node k ⟨0, 1⟩ ⟨0, 1⟩) m) = _
      rw [ih]
      show dimension_of_key k + 1 + m = dimension_of_key k + (m + 1)
      omega

/-- C2, amended: after padding, the key built for a record has nesting depth
`max (1 + M) d`, where `M` is the maximal ancestor-set size over the batch
metadata and `d` the length of the record's cleaned chain.  The claimed
uniform depth `1 + M` holds exactly when no record's chain is longer than
`1 + M` (the padding loop never shrinks a key: `range` of a negative
`padding_needed` is empty). -/
theorem C2_padded_key_dimension (meta : RawMeta) (line : LogLine) (k : Key) (mx : ℕ)
    (hm : max_nb_ancestors meta = some mx)
    (hk : log_line_key meta line = some k) :
    dimension_of_key k = max (1 + mx) (chain_length line.labels) := by
  unfold log_line_key at hk
  rw [hm] at hk
  rcases hh : hierarchical_key meta line.labels with _ | uk
  · rw [hh] at hk; exact absurd hk (by simp)
  · rw [hh] at hk
    simp only [Option.some.injEq] at hk
    subst hk
    rw [pad_key_dim]
    rw [hierarchical_key_dim meta line.labels uk hh]
    omega

/-- Witness for the amended C2 at a concrete metadata dict and record. -/
theorem C2_padded_key_dimension_witness :
    max_nb_ancestors c2w_meta = some 0 ∧
    log_line_key c2w_meta c2w_line = some (Key.leaf ⟨1000, 1000⟩ ⟨2000, 1000⟩) ∧
    dimension_of_key (Key.leaf ⟨1000, 1000⟩ ⟨2000, 1000⟩) =
      max (1 + 0) (chain_length c2w_line.labels) :=
  ⟨by decide, by decide,
   C2_padded_key_dimension c2w_meta c2w_line (Key.leaf ⟨1000, 1000⟩ ⟨2000, 1000⟩) 0
     (by decide) (by decide)⟩

/-- C2 counterexample: in the batch `c2x_input` (one record with the clean
alternating chain `A, B, A, B`), the padded key has dimension `4` while
`1 + M = 3`: the claimed batch-wide equality of key depth with `1 + M`
fails. -/
theorem C2_counterexample :
    c2x_rec ∈ clean_input_lines c2x_input ∧
    c2x_key_dim = some 4 ∧ c2x_required_dim = some 3 ∧ (4 : ℕ) ≠ 3 := by
  refine ⟨by decide, by decide, by decide, by decide⟩

/-! #### Claim C8: the sentinel task -/

/-- C8, amended: for a record with the sentinel task `"Not using an event
loop"`, the leaf key is `(t, t)` with `t` the record's own parsed timestamp
(the metadata's earliest timestamp is not consulted); and its rendered line
receives zero leading tabs provided the batch-computed ancestor set of the
sentinel task is empty - the indentation is driven by the task's batch-wide
ancestor set, not by the record's own (absent) parent. -/
theorem C8_sentinel_key_and_indentation (meta : RawMeta) (l : Labels)
    (h : l.task = not_using_an_event_loop) (ha : anc_of meta l.task = ∅) :
    labels_key meta l = Option.map (fun b => (b, b)) (timestamp_key l.timestamp) ∧
    leading_tab_count (format_labels meta l) = 0 := by
  constructor
  · unfold labels_key
    rw [h]
    simp only [ne_eq, not_true_eq_false, if_false, ite_false]
    cases timestamp_key l.timestamp <;> rfl
  · have hc : ((dict_get meta l.task).getD ⟨[], ∅⟩).task_ancestors.card = 0 := by
      unfold anc_of at ha
      rcases hd : dict_get meta l.task with _ | m
      · rfl
      · rw [hd] at ha
        simp only [Option.getD_some]
        have ha2 : m.task_ancestors = ∅ := ha
        rw [ha2]
        rfl
    show leading_tab_count
      (tabs ((dict_get meta l.task).getD ⟨[], ∅⟩).task_ancestors.card ++ "[" ++ l.timestamp
        ++ " " ++ l.task ++ " - " ++ l.thread ++ "@" ++ l.source ++ "]") = 0
    rw [hc]
    rfl

/-- Witness for the amended C8: with an empty metadata dict, a parentless
sentinel record keys on its own timestamp and renders without tabs. -/
theorem C8_sentinel_key_and_indentation_witness :
    c8w_labels.task = not_using_an_event_loop ∧ anc_of [] c8w_labels.task = ∅ ∧
    (labels_key [] c8w_labels =
        Option.map (fun b => (b, b)) (timestamp_key c8w_labels.timestamp) ∧
      leading_tab_count (format_labels [] c8w_labels) = 0) :=
  ⟨rfl, rfl, C8_sentinel_key_and_indentation [] c8w_labels rfl rfl⟩

/-- C8 counterexample: in the batch `c8x_input`, the record `c8x_rec1` has the
sentinel task and no `scheduling_context`, yet its rendered line (the first
output line) carries one leading tab, because another record of the batch
gives the sentinel task a parent: the claimed zero indentation for parentless
sentinel records fails. -/
theorem C8_counterexample :
    c8x_rec1.labels.scheduling_context = none ∧
    c8x_rec1.labels.task = not_using_an_event_loop ∧
    ScheduleBasedLogSorter.sort c8x_input = Except.ok
      [ "\t[1.000 sec Not using an event loop - MainThread@a:1]\tm1",
        "[2.000 sec Task-1 - MainThread@a:3]",
        "\t[3.000 sec Not using an event loop - MainThread@a:2]\tm2" ] ∧
    leading_tab_count "\t[1.000 sec Not using an event loop - MainThread@a:1]\tm1" ≠ 0 :=
  ⟨rfl, rfl, by rfl, by decide⟩

/-! #### Metadata dict lemmas -/

theorem dict_get_set_self (d : RawMeta) (k : String) (v : TaskMeta) :
    dict_get (dict_set d k v) k = some v := by
  induction d with
  | nil => simp [dict_set, dict_get]
  | cons hd tl ih =>
      rcases hd with ⟨k', v'⟩
      by_cases h : k' = k
      · simp [dict_set, h, dict_get]
      · simp [dict_set, h, dict_get, ih]

theorem dict_get_set_ne (d : RawMeta) (k t : String) (v : TaskMeta) (h : k ≠ t) :
    dict_get (dict_set d k v) t = dict_get d t := by
  induction d with
  | nil => simp [dict_set, dict_get, h]
  | cons hd tl ih =>
      rcases hd with ⟨k', v'⟩
      by_cases h2 : k' = k
      · subst h2
        simp [dict_set, dict_get, h]
      · simp [dict_set, h2, dict_get, ih]

theorem dict_get_mem (d : RawMeta) (t : String) (m : TaskMeta)
    (h : dict_get d t = some m) : (t, m) ∈ d := by
  induction d with
  | nil => simp [dict_get] at h
  | cons hd tl ih =>
      rcases hd with ⟨k', v'⟩
      by_cases h2 : k' = t
      · subst h2
        simp [dict_get] at h
        subst h
        exact List.mem_cons_self _ _
      · simp [dict_get, h2] at h
        exact List.mem_cons_of_mem _ (ih h)

theorem anc_of_eq_getD (d : RawMeta) (t : String) :
    anc_of d t = ((dict_get d t).getD ⟨[], ∅⟩).task_ancestors := by
  unfold anc_of
  cases dict_get d t <;> rfl

theorem ts_of_eq_getD (d : RawMeta) (t : String) :
    ts_of d t = ((dict_get d t).getD ⟨[], ∅⟩).timestamp_list := by
  unfold ts_of
  cases dict_get d t <;> rfl

theorem anc_of_set_self (d : RawMeta) (k : String) (v : TaskMeta) :
    anc_of (dict_set d k v) k = v.task_ancestors := by
  rw [anc_of_eq_getD, dict_get_set_self]
  rfl

theorem anc_of_set_ne (d : RawMeta) (k t : String) (v : TaskMeta) (h : k ≠ t) :
    anc_of (dict_set d k v) t = anc_of d t := by
  rw [anc_of_eq_getD, dict_get_set_ne _ _ _ _ h, ← anc_of_eq_getD]

theorem ts_of_set_self (d : RawMeta) (k : String) (v : TaskMeta) :
    ts_of (dict_set d k v) k = v.timestamp_list := by
  rw [ts_of_eq_getD, dict_get_set_self]
  rfl

theorem ts_of_set_ne (d : RawMeta) (k t : String) (v : TaskMeta) (h : k ≠ t) :
    ts_of (dict_set d k v) t = ts_of d t := by
  rw [ts_of_eq_getD, dict_get_set_ne _ _ _ _ h, ← ts_of_eq_getD]

/-- `meta_step` appends the timestamp to its task's list. -/
theorem ts_of_meta_step_self (d : RawMeta) (tk ts : String) :
    ts_of (meta_step d tk ts) tk = ts_of d tk ++ [ts] := by
  unfold meta_step
  rcases h : dict_get d tk with _ | m
  · simp only [h]
    rw [ts_of_eq_getD, dict_get_set_self, ts_of_eq_getD, h]
    rw [dict_get_set_self]
    rfl
  · simp only [h]
    rw [ts_of_eq_getD, dict_get_set_self, ts_of_eq_getD, h]
    rfl

/-- `meta_step` leaves other tasks' timestamp lists unchanged. -/
theorem ts_of_meta_step_ne (d : RawMeta) (tk ts t : String) (h : tk ≠ t) :
    ts_of (meta_step d tk ts) t = ts_of d t := by
  unfold meta_step
  rcases h2 : dict_get d tk with _ | m
  · simp only [h2]
    rw [ts_of_eq_getD, dict_get_set_ne _ _ _ _ h, dict_get_set_ne _ _ _ _ h, ts_of_eq_getD]
  · simp only [h2]
    rw [ts_of_eq_getD, dict_get_set_ne _ _ _ _ h, ts_of_eq_getD]

/-- `meta_step` changes no task's ancestor set. -/
theorem anc_of_meta_step (d : RawMeta) (tk ts t : String) :
    anc_of (meta_step d tk ts) t = anc_of d t := by
  unfold meta_step
  by_cases h : tk = t
  · subst h
    rcases h2 : dict_get d tk with _ | m
    · simp only [h2]
      rw [anc_of_eq_getD, dict_get_set_self, dict_get_set_self, anc_of_eq_getD, h2]
      rfl
    · simp only [h2]
      rw [anc_of_eq_getD, dict_get_set_self, anc_of_eq_getD, h2]
      rfl
  · rcases h2 : dict_get d tk with _ | m
    · simp only [h2]
      rw [anc_of_eq_getD, dict_get_set_ne _ _ _ _ h, dict_get_set_ne _ _ _ _ h, anc_of_eq_getD]
    · simp only [h2]
      rw [anc_of_eq_getD, dict_get_set_ne _ _ _ _ h, anc_of_eq_getD]

/-! #### `_extract_recursively` lemmas -/

theorem extract_recursively_base_eq (ts th tk src : String) (d : RawMeta) :
    extract_recursively (.base ts th tk src) d = meta_step d tk ts := rfl

theorem extract_recursively_child_eq (ts th tk src : String) (p : Labels) (d : RawMeta) :
    extract_recursively (.child ts th tk src p) d =
      dict_set (extract_recursively p (meta_step d tk ts)) tk
        ⟨ts_of (extract_recursively p (meta_step d tk ts)) tk,
         insert p.task
           (anc_of (extract_recursively p (meta_step d tk ts)) p.task ∪
            anc_of (extract_recursively p (meta_step d tk ts)) tk)⟩ := by
  rw [ts_of_eq_getD, anc_of_eq_getD, anc_of_eq_getD]
  rfl

/-- Ancestor sets only grow under `_extract_recursively`. -/
theorem anc_of_extract_mono (l : Labels) :
    ∀ (d : RawMeta) (t : String), anc_of d t ⊆ anc_of (extract_recursively l d) t := by
  induction l with
  | base ts th tk src =>
      intro d t
      rw [extract_recursively_base_eq, anc_of_meta_step]
  | child ts th tk src p ih =>
      intro d t
      rw [extract_recursively_child_eq]
      have h1 : anc_of d t ⊆ anc_of (extract_recursively p (meta_step d tk ts)) t := by
        rw [← anc_of_meta_step d tk ts t]
        exact ih (meta_step d tk ts) t
      by_cases htk : tk = t
      · subst htk
        rw [anc_of_set_self]
        refine h1.trans ?_
        intro x hx
        exact Finset.mem_insert_of_mem (Finset.mem_union_right _ hx)
      · rw [anc_of_set_ne _ _ _ _ htk]
        exact h1

/-- Timestamp-list membership is preserved by `_extract_recursively`. -/
theorem ts_of_extract_mono (l : Labels) :
    ∀ (d : RawMeta) (t s : String), s ∈ ts_of d t → s ∈ ts_of (extract_recursively l d) t := by
  induction l with
  | base ts th tk src =>
      intro d t s hs
      rw [extract_recursively_base_eq]
      by_cases htk : tk = t
      · subst htk
        rw [ts_of_meta_step_self]
        exact List.mem_append_left _ hs
      · rw [ts_of_meta_step_ne _ _ _ _ htk]
        exact hs
  | child ts th tk src p ih =>
      intro d t s hs
      rw [extract_recursively_child_eq]
      have h2 : s ∈ ts_of (meta_step d tk ts) t := by
        by_cases htk : tk = t
        · subst htk
          rw [ts_of_meta_step_self]
          exact List.mem_append_left _ hs
        · rw [ts_of_meta_step_ne _ _ _ _ htk]
          exact hs
      have h3 : s ∈ ts_of (extract_recursively p (meta_step d tk ts)) t := ih _ _ _ h2
      by_cases htk : tk = t
      · subst htk
        rw [ts_of_set_self]
        exact h3
      · rw [ts_of_set_ne _ _ _ _ htk]
        exact h3

/-- Every chain link's timestamp lands in its own task's timestamp list. -/
theorem ts_of_extract_collect (l : Labels) :
    ∀ (d : RawMeta) (lnk : Labels), lnk ∈ chain_links l →
      lnk.timestamp ∈ ts_of (extract_recursively l d) lnk.task := by
  induction l with
  | base ts th tk src =>
      intro d lnk h
      simp only [chain_links, List.mem_singleton] at h
      subst h
      rw [extract_recursively_base_eq]
      simp only [Labels.task_base, Labels.timestamp_base]
      rw [ts_of_meta_step_self]
      exact List.mem_append_right _ (List.mem_singleton.2 rfl)
  | child ts th tk src p ih =>
      intro d lnk h
      rw [extract_recursively_child_eq]
      have hpres : ∀ t s, s ∈ ts_of (extract_recursively p (meta_step d tk ts)) t →
          s ∈ ts_of (dict_set (extract_recursively p (meta_step d tk ts)) tk
            ⟨ts_of (extract_recursively p (meta_step d tk ts)) tk,
             insert p.task
               (anc_of (extract_recursively p (meta_step d tk ts)) p.task ∪
                anc_of (extract_recursively p (meta_step d tk ts)) tk)⟩) t := by
        intro t s hs
        by_cases htk : tk = t
        · subst htk
          rw [ts_of_set_self]
          exact hs
        · rw [ts_of_set_ne _ _ _ _ htk]
          exact hs
      simp only [chain_links, List.mem_cons] at h
      rcases h with h | h
      · subst h
        simp only [Labels.task_child, Labels.timestamp_child]
        refine hpres tk ts ?_
        refine ts_of_extract_mono p (meta_step d tk ts) tk ts ?_
        rw [ts_of_meta_step_self]
        exact List.mem_append_right _ (List.mem_singleton.2 rfl)
      · exact hpres _ _ (ih (meta_step d tk ts) lnk h)

/-- After `_extract_recursively` on a chain, every task's recorded ancestor
set covers the tasks strictly above that task's links in the chain. -/
theorem anc_of_extract_spec (l : Labels) :
    ∀ (d : RawMeta) (t : String),
      spec_ancestors_in_chain t l ⊆ anc_of (extract_recursively l d) t := by
  induction l with
  | base ts th tk src =>
      intro d t
      exact Finset.empty_subset _
  | child ts th tk src p ih =>
      intro d t
      rw [extract_recursively_child_eq]
      have hfin : ∀ t2, anc_of (extract_recursively p (meta_step d tk ts)) t2 ⊆
          anc_of (dict_set (extract_recursively p (meta_step d tk ts)) tk
            ⟨ts_of (extract_recursively p (meta_step d tk ts)) tk,
             insert p.task
               (anc_of (extract_recursively p (meta_step d tk ts)) p.task ∪
                anc_of (extract_recursively p (meta_step d tk ts)) tk)⟩) t2 := by
        intro t2
        by_cases htk : tk = t2
        · subst htk
          rw [anc_of_set_self]
          intro x hx
          exact Finset.mem_insert_of_mem (Finset.mem_union_right _ hx)
        · rw [anc_of_set_ne _ _ _ _ htk]
      show (if tk = t then chain_tasks p else ∅) ∪ spec_ancestors_in_chain t p ⊆ _
      apply Finset.union_subset
      · by_cases htk2 : tk = t
        · rw [if_pos htk2]
          subst htk2
          rw [anc_of_set_self]
          show chain_tasks p ⊆ insert p.task
            (anc_of (extract_recursively p (meta_step d tk ts)) p.task ∪
             anc_of (extract_recursively p (meta_step d tk ts)) tk)
          have hsub : ∀ x ∈ chain_tasks p, x = p.task ∨
              x ∈ anc_of (extract_recursively p (meta_step d tk ts)) p.task := by
            intro x hx
            cases p with
            | base ts2 th2 tk2 src2 =>
                simp only [chain_tasks, Finset.mem_singleton] at hx
                exact Or.inl hx
            | child ts2 th2 tk2 src2 q =>
                simp only [chain_tasks, Finset.mem_insert] at hx
                rcases hx with hx | hx
                · exact Or.inl hx
                · refine Or.inr ?_
                  refine ih (meta_step d tk ts) tk2 ?_
                  show x ∈ (if tk2 = tk2 then chain_tasks q else ∅) ∪
                    spec_ancestors_in_chain tk2 q
                  rw [if_pos rfl]
                  exact Finset.mem_union_left _ hx
          intro x hx
          rcases hsub x hx with h | h
          · subst h
            exact Finset.mem_insert_self _ _
          · exact Finset.mem_insert_of_mem (Finset.mem_union_left _ h)
        · rw [if_neg htk2]
          exact Finset.empty_subset _
      · exact (ih (meta_step d tk ts) t).trans (hfin t)

/-! #### Batch-level metadata lemmas -/

theorem anc_of_fold_mono (lines : List LogLine) :
    ∀ (d : RawMeta) (t : String),
      anc_of d t ⊆ anc_of (lines.foldl (fun d line => extract_recursively line.labels d) d) t := by
  induction lines with
  | nil =>
      intro d t
      exact fun x hx => hx
  | cons l2 rest ih =>
      intro d t
      simp only [List.foldl_cons]
      exact (anc_of_extract_mono l2.labels d t).trans (ih _ t)

theorem ts_of_fold_mono (lines : List LogLine) :
    ∀ (d : RawMeta) (t s : String), s ∈ ts_of d t →
      s ∈ ts_of (lines.foldl (fun d line => extract_recursively line.labels d) d) t := by
  induction lines with
  | nil =>
      intro d t s hs
      exact hs
  | cons l2 rest ih =>
      intro d t s hs
      simp only [List.foldl_cons]
      exact ih _ t s (ts_of_extract_mono l2.labels d t s hs)

theorem ts_of_fold_collect (lines : List LogLine) :
    ∀ (d : RawMeta) (line : LogLine), line ∈ lines → ∀ lnk ∈ chain_links line.labels,
      lnk.timestamp ∈
        ts_of (lines.foldl (fun d line => extract_recursively line.labels d) d) lnk.task := by
  induction lines with
  | nil =>
      intro d line h
      cases h
  | cons l2 rest ih =>
      intro d line h lnk hlnk
      simp only [List.foldl_cons]
      rcases List.mem_cons.1 h with h | h
      · subst h
        exact ts_of_fold_mono rest _ _ _ (ts_of_extract_collect line.labels d lnk hlnk)
      · exact ih _ line h lnk hlnk

theorem spec_fold_aux (lines : List LogLine) :
    ∀ (d : RawMeta) (acc : Finset String) (t : String), acc ⊆ anc_of d t →
      lines.foldl (fun s line => s ∪ spec_ancestors_in_chain t line.labels) acc ⊆
        anc_of (lines.foldl (fun d line => extract_recursively line.labels d) d) t := by
  induction lines with
  | nil =>
      intro d acc t h
      exact h
  | cons l2 rest ih =>
      intro d acc t h
      simp only [List.foldl_cons]
      refine ih _ _ t ?_
      apply Finset.union_subset
      · exact h.trans (anc_of_extract_mono l2.labels d t)
      · exact anc_of_extract_spec l2.labels d t

/-- The dedup-and-sort pass leaves every task's ancestor set untouched. -/
theorem anc_of_extract_task_metadata (cleaned : List LogLine) (meta : RawMeta)
    (h : extract_task_metadata cleaned = .ok meta) (t : String) :
    anc_of meta t = anc_of (raw_metadata cleaned) t := by
  unfold extract_task_metadata at h
  unfold anc_of
  generalize raw_metadata cleaned = raw at h ⊢
  induction raw generalizing meta with
  | nil =>
      simp only [map_except] at h
      have h2 : ([] : RawMeta) = meta := Except.ok.inj h
      subst h2
      rfl
  | cons p ps ih =>
      simp only [map_except] at h
      rcases hst : sort_timestamps (py_set_list p.2.timestamp_list) with e | ts2
      · rw [hst] at h
        cases h
      · rw [hst] at h
        rcases hm : map_except _ ps with e | rs
        · rw [hm] at h
          cases h
        · rw [hm] at h
          have h2 : (p.1, TaskMeta.mk ts2 p.2.task_ancestors) :: rs = meta := Except.ok.inj h
          subst h2
          by_cases hp : p.1 = t
          · simp only [dict_get, if_pos hp]
          · simp only [dict_get, if_neg hp]
            exact ih rs hm

/-! #### Claim C4: the ancestor sets -/

/-- C4, amended: the computed ancestor set of every task contains the union,
over every record of the cleaned batch whose chain has a link with task `t`,
of the task identifiers strictly above that link - but it can strictly exceed
that union and depend on the order of the records, because each link also
inherits the parent task's previously accumulated batch-wide ancestor set. -/
theorem C4_ancestors_contain_spec_union (input : List LogLine) (meta : RawMeta) (t : String)
    (hok : extract_task_metadata (clean_input_lines input) = .ok meta) :
    spec_ancestors (clean_input_lines input) t ⊆ anc_of meta t := by
  rw [anc_of_extract_task_metadata _ _ hok]
  unfold spec_ancestors raw_metadata
  exact spec_fold_aux (clean_input_lines input) [] ∅ t (Finset.empty_subset _)

/-- Witness for the amended C4 at a one-record batch with chain `A → B`. -/
theorem C4_ancestors_contain_spec_union_witness :
    extract_task_metadata (clean_input_lines c4w_input) = .ok c4w_meta ∧
    spec_ancestors (clean_input_lines c4w_input) "A" ⊆ anc_of c4w_meta "A" :=
  ⟨by rfl, C4_ancestors_contain_spec_union c4w_input c4w_meta "A" (by rfl)⟩

/-- C4 counterexample: in the batch `c4x_input` (`C → P → Q` then `D → P`),
the computed ancestor set of `D` is the pair of `P` and `Q`, although no
record's chain puts `Q` above `D` (the spec union for `D` is just `P`);
processing the two records in the opposite order yields just `P`, so the
computed set also depends on record order. -/
theorem C4_counterexample :
    final_anc_of c4x_input "D" = some {"P", "Q"} ∧
    spec_ancestors (clean_input_lines c4x_input) "D" = {"P"} ∧
    final_anc_of c4x_input_rev "D" = some {"P"} ∧
    ({"P", "Q"} : Finset String) ≠ {"P"} :=
  ⟨by decide, by decide, by decide, by decide⟩

/-! #### Error propagation (`map_except`, `py_set_list`, `sort_timestamps`) -/

theorem map_except_error_exists {α β : Type} (f : α → Except SortError β) (l : List α)
    (e : SortError) (h : map_except f l = .error e) : ∃ x ∈ l, f x = .error e := by
  induction l with
  | nil => simp [map_except] at h
  | cons x xs ih =>
      simp only [map_except] at h
      rcases hf : f x with e2 | y
      · rw [hf] at h
        have h2 : e2 = e := by
          have := h
          simp only [] at this
          exact (Except.error.inj this)
        exact ⟨x, List.mem_cons_self _ _, by rw [hf, h2]⟩
      · rw [hf] at h
        rcases hm : map_except f xs with e2 | ys
        · rw [hm] at h
          have h2 : e2 = e := Except.error.inj h
          rcases ih (h2 ▸ hm) with ⟨z, hz, hfz⟩
          exact ⟨z, List.mem_cons_of_mem _ hz, hfz⟩
        · rw [hm] at h
          cases h

theorem map_except_error_of_mem {α β : Type} (f : α → Except SortError β) (l : List α)
    (x : α) (hx : x ∈ l) (hfx : f x = .error SortError.parseError)
    (hall : ∀ y e, f y = .error e → e = SortError.parseError) :
    map_except f l = .error SortError.parseError := by
  induction l with
  | nil => cases hx
  | cons z zs ih =>
      simp only [map_except]
      rcases hz : f z with e2 | y
      · rw [hall z e2 hz]
      · rcases List.mem_cons.1 hx with h | h
        · subst h
          rw [hz] at hfx
          cases hfx
        · rw [ih h]

theorem py_set_list_mem_aux (l : List String) :
    ∀ (acc : List String) (s : String), s ∈ acc ∨ s ∈ l →
      s ∈ l.foldl (fun acc x => if x ∈ acc then acc else acc ++ [x]) acc := by
  induction l with
  | nil =>
      intro acc s h
      rcases h with h | h
      · exact h
      · cases h
  | cons x xs ih =>
      intro acc s h
      simp only [List.foldl_cons]
      have hacc : ∀ t, t ∈ acc → t ∈ (if x ∈ acc then acc else acc ++ [x]) := by
        intro t ht
        by_cases hmem : x ∈ acc
        · rw [if_pos hmem]; exact ht
        · rw [if_neg hmem]; exact List.mem_append_left _ ht
      rcases h with h | h
      · exact ih _ s (Or.inl (hacc s h))
      · rcases List.mem_cons.1 h with h | h
        · subst h
          refine ih _ s (Or.inl ?_)
          by_cases hmem : s ∈ acc
          · rw [if_pos hmem]; exact hmem
          · rw [if_neg hmem]; exact List.mem_append_right _ (List.mem_singleton.2 rfl)
        · exact ih _ s (Or.inr h)

theorem py_set_list_mem (l : List String) (s : String) (hs : s ∈ l) : s ∈ py_set_list l :=
  py_set_list_mem_aux l [] s (Or.inr hs)

theorem py_set_list_nodup_aux (l : List String) :
    ∀ (acc : List String), acc.Nodup →
      (l.foldl (fun acc x => if x ∈ acc then acc else acc ++ [x]) acc).Nodup := by
  induction l with
  | nil =>
      intro acc h
      exact h
  | cons x xs ih =>
      intro acc h
      simp only [List.foldl_cons]
      refine ih _ ?_
      by_cases hmem : x ∈ acc
      · rw [if_pos hmem]; exact h
      · rw [if_neg hmem]
        rw [List.nodup_append]
        exact ⟨h, List.nodup_singleton x, by
          intro a ha hax
          rw [List.mem_singleton.1 hax] at ha
          exact hmem ha⟩

theorem py_set_list_nodup (l : List String) : (py_set_list l).Nodup :=
  py_set_list_nodup_aux l [] List.nodup_nil

/-- A malformed member makes the timestamp sort raise. -/
theorem sort_timestamps_error_mem (l : List String) (s : String) (hs : s ∈ l)
    (hbad : timestamp_key s = none) : sort_timestamps l = .error SortError.parseError := by
  unfold sort_timestamps
  rw [map_except_error_of_mem _ l s hs (by rw [hbad]) ?_]
  intro y e hy
  rcases ht : timestamp_key y with _ | q
  · rw [ht] at hy
    exact (Except.error.inj hy).symm
  · rw [ht] at hy
    cases hy

/-- `sort_timestamps` can only raise the parse error. -/
theorem sort_timestamps_error_eq (l : List String) (e : SortError)
    (h : sort_timestamps l = .error e) : e = SortError.parseError := by
  unfold sort_timestamps at h
  rcases hm : map_except (fun s => match timestamp_key s with
      | some q => Except.ok (s, q)
      | none => Except.error SortError.parseError) l with e2 | keyed
  · rw [hm] at h
    have h2 : e2 = e := Except.error.inj h
    subst h2
    rcases map_except_error_exists _ l e2 hm with ⟨x, _, hfx⟩
    rcases ht : timestamp_key x with _ | q
    · rw [ht] at hfx
      exact (Except.error.inj hfx).symm
    · rw [ht] at hfx
      cases hfx
  · rw [hm] at h
    cases h

/-! #### Claim C5: malformed timestamps -/

/-- C5, amended: a malformed timestamp on any link that survives the cleaning
pass (the record's own Label Set or any ancestor kept in the cleaned chain)
makes the whole run fail with the parse error, which is raised while the
metadata pass sorts the timestamp lists and carries no record content; no
output is produced.  (Malformed timestamps on links the cleaning pass drops
are never parsed - see the counterexample.) -/
theorem C5_malformed_timestamp_fails_batch (input : List LogLine) (line : LogLine)
    (lnk : Labels) (hline : line ∈ clean_input_lines input)
    (hlnk : lnk ∈ chain_links line.labels)
    (hbad : timestamp_key lnk.timestamp = none) :
    ScheduleBasedLogSorter.sort input = .error SortError.parseError := by
  have hts : lnk.timestamp ∈ ts_of (raw_metadata (clean_input_lines input)) lnk.task := by
    unfold raw_metadata
    exact ts_of_fold_collect (clean_input_lines input) [] line hline lnk hlnk
  rcases hd : dict_get (raw_metadata (clean_input_lines input)) lnk.task with _ | m
  · unfold ts_of at hts
    rw [hd] at hts
    cases hts
  · have hmem : (lnk.task, m) ∈ raw_metadata (clean_input_lines input) :=
      dict_get_mem _ _ _ hd
    have hts2 : lnk.timestamp ∈ m.timestamp_list := by
      unfold ts_of at hts
      rw [hd] at hts
      exact hts
    have hsort : sort_timestamps (py_set_list m.timestamp_list) =
        .error SortError.parseError :=
      sort_timestamps_error_mem _ _ (py_set_list_mem _ _ hts2) hbad
    have hext : extract_task_metadata (clean_input_lines input) =
        .error SortError.parseError := by
      unfold extract_task_metadata
      refine map_except_error_of_mem _ _ (lnk.task, m) hmem (by rw [hsort]) ?_
      intro y e hy
      rcases hst : sort_timestamps (py_set_list y.2.timestamp_list) with e2 | ts2
      · rw [hst] at hy
        rw [← Except.error.inj hy]
        exact sort_timestamps_error_eq _ _ hst
      · rw [hst] at hy
        cases hy
    show (match extract_task_metadata (clean_input_lines input) with
          | .error e => Except.error e
          | .ok meta =>
              match sort_lines (clean_input_lines input) meta with
              | .error e => Except.error e
              | .ok sorted_lines => Except.ok (render meta sorted_lines)) = _
    rw [hext]

/-- Witness for the amended C5: a batch whose single (chainless) record has
the malformed timestamp string. -/
theorem C5_malformed_timestamp_fails_batch_witness :
    c5w_line ∈ clean_input_lines c5w_input ∧
    c5w_line.labels ∈ chain_links c5w_line.labels ∧
    timestamp_key c5w_line.labels.timestamp = none ∧
    ScheduleBasedLogSorter.sort c5w_input = .error SortError.parseError :=
  ⟨by decide, by decide, by decide,
   C5_malformed_timestamp_fails_batch c5w_input c5w_line c5w_line.labels
     (by decide) (by decide) (by decide)⟩

/-- C5 counterexample: the batch `c5x_input` carries the malformed timestamp
`"garbage"` on a parent link with the same task as its child; the cleaning
pass drops that link, no parse error occurs, and `sort()` succeeds with
output - refuting the claim that any malformed Label Set timestamp in the
batch fails the batch. -/
theorem C5_counterexample :
    timestamp_key "garbage" = none ∧
    ScheduleBasedLogSorter.sort c5x_input = Except.ok ["[1.000 sec A - T@s:1]\tm"] :=
  ⟨by decide, by rfl⟩

/-! #### Claim C7: timestamp lists -/

/-- Every `PyNum` that `timestamp_key` produces has a positive denominator
(a power of ten or one). -/
theorem timestamp_key_den_pos (s : String) (x : PyNum) (h : timestamp_key s = some x) :
    0 < x.den := by
  unfold timestamp_key at h
  by_cases h1 : s.data.takeWhile Char.isDigit = []
  · rw [if_pos h1] at h
    cases h
  · rw [if_neg h1] at h
    rcases hr : s.data.dropWhile Char.isDigit with _ | ⟨c, r2⟩
    · rw [hr] at h
      cases h
    · rw [hr] at h
      simp only [] at h
      by_cases h2 : c ≠ '\n' ∧ r2.takeWhile Char.isDigit ≠ [] ∧
          starts_with_chars " sec".data (r2.dropWhile Char.isDigit) = true
      · rw [if_pos h2] at h
        unfold float_of_group at h
        by_cases h3 : c = '.'
        · rw [if_pos h3] at h
          have hx := Option.some.inj h
          rw [← hx]
          positivity
        · rw [if_neg h3] at h
          by_cases h4 : c = '_'
          · rw [if_pos h4] at h
            have hx := Option.some.inj h
            rw [← hx]
            norm_num
          · rw [if_neg h4] at h
            by_cases h5 : c = 'e' ∨ c = 'E'
            · rw [if_pos h5] at h
              have hx := Option.some.inj h
              rw [← hx]
              norm_num
            · rw [if_neg h5] at h
              cases h
      · rw [if_neg h2] at h
        by_cases h6 : 3 ≤ (s.data.takeWhile Char.isDigit).length ∧
            starts_with_chars " sec".data (c :: r2) = true
        · rw [if_pos h6] at h
          have hx := Option.some.inj h
          rw [← hx]
          norm_num
        · rw [if_neg h6] at h
          cases h

/-- `x < y` failing, for positive denominators, means `toRat`-order `y ≤ x`. -/
theorem toRat_le_of_lt_false (a b : PyNum) (ha : 0 < a.den) (hb : 0 < b.den)
    (h : PyNum.lt b a = false) : a.toRat ≤ b.toRat := by
  unfold PyNum.lt at h
  rw [decide_eq_false_iff_not] at h
  push_neg at h
  unfold PyNum.toRat
  rw [div_le_div_iff₀ (by exact_mod_cast ha) (by exact_mod_cast hb)]
  exact_mod_cast h

/-- If `x < y` then not `y < x` (values, by cross-multiplication). -/
theorem pynum_lt_asymm (a b : PyNum) (h : PyNum.lt a b = true) : PyNum.lt b a = false := by
  unfold PyNum.lt at h ⊢
  rw [decide_eq_true_eq] at h
  rw [decide_eq_false_iff_not]
  omega

theorem py_insert_ts_perm (x : String × PyNum) (l : List (String × PyNum)) :
    (py_insert_ts x l).Perm (x :: l) := by
  induction l with
  | nil => exact List.Perm.refl _
  | cons y ys ih =>
      unfold py_insert_ts
      by_cases hlt : x.2.lt y.2 = true
      · rw [if_pos hlt]
      · rw [if_neg hlt]
        exact (List.Perm.cons y ih).trans (List.Perm.swap x y ys)

theorem py_sort_ts_perm (l : List (String × PyNum)) :
    ∀ acc, (py_sort_ts acc l).Perm (acc ++ l) := by
  induction l with
  | nil =>
      intro acc
      simp [py_sort_ts]
  | cons x xs ih =>
      intro acc
      show (py_sort_ts (py_insert_ts x acc) xs).Perm _
      refine (ih (py_insert_ts x acc)).trans ?_
      refine (List.Perm.append_right xs (py_insert_ts_perm x acc)).trans ?_
      exact List.perm_middle.symm

theorem py_insert_ts_chain (x : String × PyNum) (l : List (String × PyNum))
    (h : l.Chain' (fun a b => PyNum.lt b.2 a.2 = false)) :
    (py_insert_ts x l).Chain' (fun a b => PyNum.lt b.2 a.2 = false) := by
  induction l with
  | nil => exact List.chain'_singleton x
  | cons y ys ih =>
      unfold py_insert_ts
      by_cases hlt : x.2.lt y.2 = true
      · rw [if_pos hlt]
        exact List.Chain'.cons (pynum_lt_asymm _ _ hlt) h
      · rw [if_neg hlt]
        have hys : ys.Chain' (fun a b => PyNum.lt b.2 a.2 = false) := h.tail
        have hxy : PyNum.lt x.2 y.2 = false := by
          simp only [Bool.not_eq_true] at hlt
          exact hlt
        cases ys with
        | nil =>
            show List.Chain' _ [y, x]
            exact List.chain'_pair.2 hxy
        | cons z zs =>
            show List.Chain' _ (y :: py_insert_ts x (z :: zs))
            have hrest := ih hys
            unfold py_insert_ts at hrest ⊢
            by_cases hlt2 : x.2.lt z.2 = true
            · rw [if_pos hlt2] at hrest ⊢
              exact List.Chain'.cons hxy hrest
            · rw [if_neg hlt2] at hrest ⊢
              exact List.Chain'.cons ((List.chain'_cons.1 h).1) hrest

theorem py_sort_ts_chain (l : List (String × PyNum)) :
    ∀ acc, acc.Chain' (fun a b => PyNum.lt b.2 a.2 = false) →
      (py_sort_ts acc l).Chain' (fun a b => PyNum.lt b.2 a.2 = false) := by
  induction l with
  | nil =>
      intro acc h
      exact h
  | cons x xs ih =>
      intro acc h
      exact ih _ (py_insert_ts_chain x acc h)

theorem map_except_ok_mem {α β : Type} (f : α → Except SortError β) (l : List α)
    (r : List β) (h : map_except f l = .ok r) : ∀ y ∈ r, ∃ x ∈ l, f x = .ok y := by
  induction l generalizing r with
  | nil =>
      simp only [map_except] at h
      have h2 : ([] : List β) = r := Except.ok.inj h
      subst h2
      intro y hy
      cases hy
  | cons x xs ih =>
      simp only [map_except] at h
      rcases hf : f x with e | y0
      · rw [hf] at h
        cases h
      · rw [hf] at h
        rcases hm : map_except f xs with e | ys
        · rw [hm] at h
          cases h
        · rw [hm] at h
          have h2 : y0 :: ys = r := Except.ok.inj h
          subst h2
          intro y hy
          rcases List.mem_cons.1 hy with hy | hy
          · subst hy
            exact ⟨x, List.mem_cons_self _ _, hf⟩
          · rcases ih ys hm y hy with ⟨z, hz, hfz⟩
            exact ⟨z, List.mem_cons_of_mem _ hz, hfz⟩

/-- The keyed list built by `sort_timestamps` projects back to the input and
pairs each string with its parsed value. -/
theorem parse_keyed_spec (l : List String) (keyed : List (String × PyNum))
    (h : map_except (fun s => match timestamp_key s with
        | some q => Except.ok (s, q)
        | none => Except.error SortError.parseError) l = .ok keyed) :
    keyed.map Prod.fst = l ∧ ∀ pr ∈ keyed, timestamp_key pr.1 = some pr.2 := by
  induction l generalizing keyed with
  | nil =>
      simp only [map_except] at h
      have h2 : ([] : List (String × PyNum)) = keyed := Except.ok.inj h
      subst h2
      exact ⟨rfl, by intro pr hpr; cases hpr⟩
  | cons s ss ih =>
      simp only [map_except] at h
      rcases ht : timestamp_key s with _ | q
      · rw [ht] at h
        cases h
      · rw [ht] at h
        rcases hm : map_except _ ss with e | ys
        · rw [hm] at h
          cases h
        · rw [hm] at h
          have h2 : (s, q) :: ys = keyed := Except.ok.inj h
          subst h2
          rcases ih ys hm with ⟨ih1, ih2⟩
          refine ⟨by rw [List.map_cons, ih1], ?_⟩
          intro pr hpr
          rcases List.mem_cons.1 hpr with hpr | hpr
          · subst hpr
            exact ht
          · exact ih2 pr hpr

/-- Combine the pairwise sortedness of the keyed pairs with the parse facts
into the specification-level chain on the string list. -/
theorem chain_map_combine (lp : List (String × PyNum))
    (hmem : ∀ pr ∈ lp, timestamp_key pr.1 = some pr.2)
    (hch : lp.Chain' (fun a b => PyNum.lt b.2 a.2 = false)) :
    (lp.map Prod.fst).Chain' (fun a b => ∃ xa xb, timestamp_key a = some xa ∧
      timestamp_key b = some xb ∧ xa.toRat ≤ xb.toRat) := by
  induction lp with
  | nil => exact List.chain'_nil
  | cons x xs ih =>
      cases xs with
      | nil => exact List.chain'_singleton _
      | cons y ys =>
          rw [List.map_cons, List.map_cons]
          refine List.chain'_cons.2 ⟨?_, ?_⟩
          · have hx := hmem x (List.mem_cons_self _ _)
            have hy := hmem y (List.mem_cons_of_mem _ (List.mem_cons_self _ _))
            refine ⟨x.2, y.2, hx, hy, ?_⟩
            exact toRat_le_of_lt_false x.2 y.2 (timestamp_key_den_pos _ _ hx)
              (timestamp_key_den_pos _ _ hy) (List.chain'_cons.1 hch).1
          · rw [← List.map_cons]
            refine ih ?_ (List.chain'_cons.1 hch).2
            intro pr hpr
            exact hmem pr (List.mem_cons_of_mem _ hpr)

/-- On a duplicate-free input, a successful `sort_timestamps` returns a
duplicate-free list sorted non-decreasingly by parsed value. -/
theorem sort_timestamps_ok_spec (l out : List String)
    (h : sort_timestamps l = .ok out) (hnd : l.Nodup) :
    out.Nodup ∧ out.Chain' (fun a b => ∃ xa xb, timestamp_key a = some xa ∧
      timestamp_key b = some xb ∧ xa.toRat ≤ xb.toRat) := by
  unfold sort_timestamps at h
  rcases hm : map_except (fun s => match timestamp_key s with
      | some q => Except.ok (s, q)
      | none => Except.error SortError.parseError) l with e | keyed
  · rw [hm] at h
    cases h
  · rw [hm] at h
    have hout : (py_sort_ts [] keyed).map Prod.fst = out := Except.ok.inj h
    rcases parse_keyed_spec l keyed hm with ⟨hfst, hparse⟩
    have hperm : (py_sort_ts [] keyed).Perm keyed := py_sort_ts_perm keyed []
    constructor
    · rw [← hout]
      have : ((py_sort_ts [] keyed).map Prod.fst).Perm (keyed.map Prod.fst) :=
        hperm.map Prod.fst
      rw [hfst] at this
      exact this.symm.nodup hnd
    · rw [← hout]
      refine chain_map_combine _ ?_ (py_sort_ts_chain keyed [] List.chain'_nil)
      intro pr hpr
      exact hparse pr (hperm.mem_iff.1 hpr)

/-- C7: for every batch on which the metadata extraction succeeds, every
task's `timestamp_list` is duplicate-free and sorted non-decreasingly under
numeric comparison of the parsed elapsed-seconds values (not lexicographic
string comparison). -/
theorem C7_timestamp_lists_sorted_nodup (input : List LogLine) (meta : RawMeta)
    (p : String × TaskMeta)
    (hok : extract_task_metadata (clean_input_lines input) = .ok meta) (hp : p ∈ meta) :
    p.2.timestamp_list.Nodup ∧
    p.2.timestamp_list.Chain' (fun a b => ∃ xa xb, timestamp_key a = some xa ∧
      timestamp_key b = some xb ∧ xa.toRat ≤ xb.toRat) := by
  unfold extract_task_metadata at hok
  rcases map_except_ok_mem _ _ _ hok p hp with ⟨p0, _, hf⟩
  rcases hst : sort_timestamps (py_set_list p0.2.timestamp_list) with e | ts2
  · rw [hst] at hf
    cases hf
  · rw [hst] at hf
    have h2 : (p0.1, TaskMeta.mk ts2 p0.2.task_ancestors) = p := Except.ok.inj hf
    have hts : p.2.timestamp_list = ts2 := by rw [← h2]
    rw [hts]
    exact sort_timestamps_ok_spec _ _ hst (py_set_list_nodup _)

/-- Witness for C7 on the C1 scenario batch: the `Task-36` entry carries two
timestamps. -/
theorem C7_timestamp_lists_sorted_nodup_witness :
    extract_task_metadata (clean_input_lines [c1_rec1, c1_rec2]) = .ok c7w_meta ∧
    c7w_entry ∈ c7w_meta ∧
    (c7w_entry.2.timestamp_list.Nodup ∧
      c7w_entry.2.timestamp_list.Chain' (fun a b => ∃ xa xb, timestamp_key a = some xa ∧
        timestamp_key b = some xb ∧ xa.toRat ≤ xb.toRat)) :=
  ⟨by rfl, by decide,
   C7_timestamp_lists_sorted_nodup [c1_rec1, c1_rec2] c7w_meta c7w_entry (by rfl) (by decide)⟩
